import Mathlib

/-!
Verification of the stats_supplement repository: a shallow embedding of
src/fwer_corrections.py and src/stattests.py, together with theorems about
the embedded functions.

P-values, sample observations and ranks are modelled as rationals (the
Python code computes with floats; the model is exact arithmetic).  The
float library functions math.sqrt and math.erf are modelled over the
reals.  Fallible code (Python exceptions) is modelled with Except.
-/

/-- The kinds of Python exceptions the embedded code can raise:
AssertionError (from assert statements), ZeroDivisionError (from division
by zero) and ValueError math domain error (from math.sqrt of a negative). -/
inductive PyErr
  | assertionError
  | zeroDivisionError
  | domainError
deriving DecidableEq

/-- Python enumerate: pyEnum i [a, b, ...] = [(i, a), (i+1, b), ...]. -/
def pyEnum {α : Type} : ℕ → List α → List (ℕ × α)
  | _, [] => []
  | i, a :: l => (i, a) :: pyEnum (i + 1) l

/-- The comparison used by sorted(enumerate(p_values), key=lambda x: x[1]):
pairs compare by their second (p-value) component. -/
def keyLE (a b : ℕ × ℚ) : Prop := a.2 ≤ b.2

instance : DecidableRel keyLE := fun a b => inferInstanceAs (Decidable (a.2 ≤ b.2))

instance : IsTotal (ℕ × ℚ) keyLE := ⟨fun a b => le_total a.2 b.2⟩

instance : IsTrans (ℕ × ℚ) keyLE := ⟨fun _ _ _ h h2 => le_trans h h2⟩

/-- The comparison used by sorted(corrected_pvals_tup, key=lambda x: x[0]):
pairs compare by their first (original index) component. -/
def idxLE (a b : ℕ × ℚ) : Prop := a.1 ≤ b.1

instance : DecidableRel idxLE := fun a b => inferInstanceAs (Decidable (a.1 ≤ b.1))

instance : IsTotal (ℕ × ℚ) idxLE := ⟨fun a b => le_total a.1 b.1⟩

instance : IsTrans (ℕ × ℚ) idxLE := ⟨fun _ _ _ h h2 => le_trans h h2⟩

/-- Python range(n, 0, -1) = [n, n-1, ..., 1]. -/
def rangeDown : ℕ → List ℕ
  | 0 => []
  | n + 1 => (n + 1) :: rangeDown n

/-- The sorted pairs: sorted_pvals_tup = sorted(enumerate(p_values), key=lambda x: x[1]).
Python sorted is a stable sort; insertionSort is stable for keyLE. -/
def sorted_pvals_tup (p_values : List ℚ) : List (ℕ × ℚ) :=
  List.insertionSort keyLE (pyEnum 0 p_values)

/-- The corrected pairs: corrected_pvals_tup = [(ind_p[0], ind_p[1]*factor) for ind_p, factor in
zip(sorted_pvals_tup, range(len(p_values), 0, -1))]. -/
def corrected_pvals_tup (p_values : List ℚ) : List (ℕ × ℚ) :=
  ((sorted_pvals_tup p_values).zip (rangeDown p_values.length)).map
    (fun x => (x.1.1, x.1.2 * (x.2 : ℚ)))

/-- The loop in _holm_bonferroni collecting original indices into trues
while the corrected p-value is < alpha, and breaking at the first sorted
position whose corrected p-value is >= alpha. -/
def takeTrues : List (ℕ × ℚ) → ℚ → List ℕ
  | [], _ => []
  | t :: rest, alpha => if t.2 < alpha then t.1 :: takeTrues rest alpha else []

/-- The trues list of _holm_bonferroni. -/
def holm_trues (p_values : List ℚ) (alpha : ℚ) : List ℕ :=
  takeTrues (corrected_pvals_tup p_values) alpha

/-- Embedding of _holm_bonferroni from src/fwer_corrections.py.  The first component is
results (np.zeros(len(p_values), dtype=bool) with results[trues] = True,
i.e. position i is True exactly when i is in trues); the second is
corrected_pvals (corrected values re-sorted back into original index
order). -/
def _holm_bonferroni (p_values : List ℚ) (alpha : ℚ) : List Bool × List ℚ :=
  ((List.range p_values.length).map (fun i => decide (i ∈ holm_trues p_values alpha)),
   (List.insertionSort idxLE (corrected_pvals_tup p_values)).map (fun x => x.2))

/-- Embedding of _bonferroni from src/fwer_corrections.py: corrected_pvals = p_values*n
(numpy elementwise scalar multiplication), significance = corrected_pvals
< alpha (numpy elementwise comparison). -/
def _bonferroni (p_values : List ℚ) (alpha : ℚ) : List Bool × List ℚ :=
  ((p_values.map (fun p => p * (p_values.length : ℚ))).map (fun c => decide (c < alpha)),
   p_values.map (fun p => p * (p_values.length : ℚ)))

/-- The Sidak correction factor: alpha * 1. / (1 - (1 - alpha) ** (1. / n))
when n is nonzero, else 1.  The fractional power is real (Python float **). -/
noncomputable def sidak_correction (alpha : ℚ) (n : ℕ) : ℝ :=
  if n ≠ 0 then (alpha : ℝ) * 1 / (1 - (1 - (alpha : ℝ)) ^ ((1 : ℝ) / n)) else 1

open Classical

/-- Embedding of _sidak from src/fwer_corrections.py: corrected_pvals = p_values*correction,
significance = corrected_pvals < alpha, both elementwise. -/
noncomputable def _sidak (p_values : List ℚ) (alpha : ℚ) : List Bool × List ℝ :=
  ((p_values.map (fun p : ℚ => (p : ℝ) * sidak_correction alpha p_values.length)).map
     (fun c => if c < (alpha : ℝ) then true else false),
   p_values.map (fun p : ℚ => (p : ℝ) * sidak_correction alpha p_values.length))

/-- Lift an exact (rational) correction result to the dispatcher's common
result type (numpy float arrays are modelled as real vectors). -/
def liftCorrection (r : List Bool × List ℚ) : List Bool × List ℝ :=
  (r.1, r.2.map (fun q : ℚ => (q : ℝ)))

/-- The keys of the routines dict in test_corrected. -/
def routineNames : List String := ["holm_bonferroni", "bonferroni", "sidak"]

/-- Embedding of test_corrected from src/fwer_corrections.py: assert routine in routines
(an unrecognized name raises AssertionError), then delegate to the matching
routine applied to np.array(p_values) (the conversion of the input sequence
to a fixed-size numeric vector is the identity on the List model). -/
noncomputable def test_corrected (p_values : List ℚ) (alpha : ℚ) (routine : String) :
    Except PyErr (List Bool × List ℝ) :=
  if routine ∈ routineNames then
    if routine = "holm_bonferroni" then .ok (liftCorrection (_holm_bonferroni p_values alpha))
    else if routine = "bonferroni" then .ok (liftCorrection (_bonferroni p_values alpha))
    else .ok (_sidak p_values alpha)
  else .error .assertionError

/-- A Python dict built from a list of key-value pairs in order, later
bindings overwriting earlier ones, read as a partial lookup function. -/
def pyDict {α β : Type} [DecidableEq α] (ps : List (α × β)) : α → Option β :=
  ps.foldl (fun m kv => fun v => if v = kv.1 then some kv.2 else m v) (fun _ => none)

/-- Python sum(range(p, p - count, -1)): the sum of the count descending
integers p, p-1, ..., p-count+1 (here over ℚ since the dict stores the
rank as a number). -/
def sumRangeDown (p : ℚ) : ℕ → ℚ
  | 0 => 0
  | c + 1 => p + sumRangeDown (p - 1) c

/-- The comparison of sorted(values, reverse=True): descending order. -/
def descLE (a b : ℚ) : Prop := b ≤ a

instance : DecidableRel descLE := fun a b => inferInstanceAs (Decidable (b ≤ a))

instance : IsTotal ℚ descLE := ⟨fun a b => le_total b a⟩

instance : IsTrans ℚ descLE := ⟨fun _ _ _ h h2 => le_trans h2 h⟩

/-- sorted(values, reverse=True). -/
def sortedDesc (values : List ℚ) : List ℚ := List.insertionSort descLE values

/-- Embedding of rank from src/stattests.py.  The base dict is
{value: i+1 for i, value in enumerate(sorted(values, reverse=True))}
(for a repeated value the last enumeration index wins, as in a Python dict
comprehension).  Then for every value with count > 1 (the items of
Counter(values); iteration order is immaterial since each step touches only
its own key) the rank is replaced by
sum(range(ranks[value], ranks[value] - count, -1))/count. -/
def rank (values : List ℚ) : ℚ → Option ℚ :=
  ((values.dedup).filter (fun v => decide (1 < values.count v))).foldl
    (fun m value => fun w =>
      if w = value then
        (m value).map (fun r => sumRangeDown r (values.count value) / ((values.count value : ℕ) : ℚ))
      else m w)
    (pyDict ((pyEnum 0 (sortedDesc values)).map (fun iv => (iv.2, ((iv.1 + 1 : ℕ) : ℚ)))))

/-- The tie-correction accumulator of calculate_z:
sum((value**3 - value)/12 for value in Counter(chain(ranks1, ranks2)).values()
if value > 1), where the Counter values are the multiplicities of the
pooled rank values. -/
def sigma_term (rs : List ℚ) : ℚ :=
  ((((rs.dedup).map (fun v => rs.count v)).filter (fun c => decide (1 < c))).map
    (fun c : ℕ => ((c : ℚ) ^ 3 - (c : ℚ)) / 12)).sum

/-- The statistic U1 = n1 * n2 + (n1 * (n1 + 1))/2.0 - R1 from calculate_z. -/
def U1 (ranks1 ranks2 : List ℚ) : ℚ :=
  (ranks1.length : ℚ) * (ranks2.length : ℚ) +
    ((ranks1.length : ℚ) * ((ranks1.length : ℚ) + 1)) / 2 - ranks1.sum

/-- The statistic U2 = n1 * n2 + (n2 * (n2 + 1))/2.0 - R2 from calculate_z. -/
def U2 (ranks1 ranks2 : List ℚ) : ℚ :=
  (ranks1.length : ℚ) * (ranks2.length : ℚ) +
    ((ranks2.length : ℚ) * ((ranks2.length : ℚ) + 1)) / 2 - ranks2.sum

/-- Embedding of calculate_z from src/stattests.py.  The assert is modelled as an
AssertionError branch; the two divisions raise ZeroDivisionError when the
divisor is zero (for the final division, std = sqrt(sq1)*sqrt(sq2) is zero
exactly when sq1 = 0 or sq2 = 0, given the earlier nonnegativity checks);
math.sqrt of a negative raises a ValueError math domain error. -/
noncomputable def calculate_z (ranks1 ranks2 : List ℚ) : Except PyErr ℝ :=
  let n1 : ℚ := ranks1.length
  let n2 : ℚ := ranks2.length
  if U1 ranks1 ranks2 + U2 ranks1 ranks2 ≠ n1 * n2 then .error .assertionError
  else
    let mean : ℚ := n1 * n2 / 2
    let n : ℚ := n1 + n2
    if n * (n - 1) = 0 then .error .zeroDivisionError
    else
      let sq1 : ℚ := n1 * n2 / (n * (n - 1))
      if sq1 < 0 then .error .domainError
      else
        let sq2 : ℚ := (n ^ 3 - n) / 12 - sigma_term (ranks1 ++ ranks2)
        if sq2 < 0 then .error .domainError
        else if sq1 = 0 ∨ sq2 = 0 then .error .zeroDivisionError
        else
          let U : ℚ := min (U1 ranks1 ranks2) (U2 ranks1 ranks2)
          let num : ℚ := U - mean
          .ok ((num : ℝ) / (Real.sqrt (sq1 : ℝ) * Real.sqrt (sq2 : ℝ)))

/-- Modelled from the spec: math.erf, the error function, given by its
standard integral definition (the spec uses it only through
Phi(z) = 0.5*(1 + erf(z/sqrt 2))). -/
noncomputable def erf (x : ℝ) : ℝ :=
  2 / Real.sqrt Real.pi * ∫ t in (0 : ℝ)..x, Real.exp (-(t ^ 2))

/-- Embedding of z_to_p from src/stattests.py: 0.5 * (1 + erf(z / sqrt(2))). -/
noncomputable def z_to_p (z : ℝ) : ℝ := 0.5 * (1 + erf (z / Real.sqrt 2))

/-- Embedding of mannwhitneyu from src/stattests.py.  rank_dict = rank(chain(x1, x2));
each sample element is mapped to its pooled rank (the key is always
present, so the dict indexing rank_dict[el] is modelled with getD); the
returned pair is (p_val < p/2, p_val). -/
noncomputable def mannwhitneyu (x1 x2 : List ℚ) (p : ℚ) : Except PyErr (Bool × ℝ) :=
  let rank_dict := rank (x1 ++ x2)
  let x1_ranks := x1.map (fun el => (rank_dict el).getD 0)
  let x2_ranks := x2.map (fun el => (rank_dict el).getD 0)
  match calculate_z x1_ranks x2_ranks with
  | .error e => .error e
  | .ok z => .ok (if z_to_p z < (p : ℝ) / 2 then true else false, z_to_p z)

/-! ### Lemmas: Python dict semantics -/

lemma pyDict_foldl {α β : Type} [DecidableEq α] (ps : List (α × β)) (init : α → Option β)
    (v : α) :
    List.foldl (fun m kv => fun w => if w = kv.1 then some kv.2 else m w) init ps v =
      match pyDict ps v with
      | some b => some b
      | none => init v := by
  induction ps generalizing init with
  | nil => rfl
  | cons kv rest ih =>
    simp only [List.foldl_cons]
    rw [ih]
    conv_rhs => rw [pyDict]
    simp only [List.foldl_cons]
    rw [show (List.foldl (fun m kv => fun w => if w = kv.1 then some kv.2 else m w)
      ((fun m kv => fun w => if w = kv.1 then some kv.2 else m w) (fun _ => none) kv) rest)
        = rest.foldl (fun m kv => fun w => if w = kv.1 then some kv.2 else m w)
          (fun w => if w = kv.1 then some kv.2 else none) from rfl]
    rw [show (rest.foldl (fun m kv => fun w => if w = kv.1 then some kv.2 else m w)
      (fun w => if w = kv.1 then some kv.2 else none)) v
        = match pyDict rest v with
          | some b => some b
          | none => if v = kv.1 then some kv.2 else none from ih _]
    cases h : pyDict rest v with
    | some b => rfl
    | none =>
      show (if v = kv.1 then some kv.2 else init v) = _
      by_cases hv : v = kv.1 <;> simp [hv]

lemma pyDict_cons {α β : Type} [DecidableEq α] (kv : α × β) (ps : List (α × β)) (v : α) :
    pyDict (kv :: ps) v = match pyDict ps v with
      | some b => some b
      | none => if v = kv.1 then some kv.2 else none := by
  conv_lhs => rw [pyDict]
  simp only [List.foldl_cons]
  rw [show (ps.foldl (fun m kv => fun w => if w = kv.1 then some kv.2 else m w)
    ((fun m kv => fun w => if w = kv.1 then some kv.2 else m w) (fun _ => none) kv)) v
      = match pyDict ps v with
        | some b => some b
        | none => if v = kv.1 then some kv.2 else none from pyDict_foldl _ _ _]

lemma pyDict_enum_not_mem : ∀ (s : List ℚ) (k : ℕ) (v : ℚ), v ∉ s →
    pyDict ((pyEnum k s).map (fun iv => (iv.2, ((iv.1 + 1 : ℕ) : ℚ)))) v = none := by
  intro s
  induction s with
  | nil => intro k v _; rfl
  | cons a t ih =>
    intro k v hv
    rw [List.mem_cons, not_or] at hv
    rw [pyEnum, List.map_cons, pyDict_cons, ih (k + 1) v hv.2]
    simp [hv.1]

lemma pyDict_enum_rank : ∀ (s : List ℚ), List.Sorted descLE s → ∀ (k : ℕ) (v : ℚ), v ∈ s →
    pyDict ((pyEnum k s).map (fun iv => (iv.2, ((iv.1 + 1 : ℕ) : ℚ)))) v =
      some (((k + s.countP (fun w => decide (v ≤ w)) : ℕ) : ℚ)) := by
  intro s
  induction s with
  | nil => intro _ k v hv; exact absurd hv (List.not_mem_nil v)
  | cons a t ih =>
    intro hs k v hv
    rw [List.sorted_cons] at hs
    rw [pyEnum, List.map_cons, pyDict_cons]
    by_cases hvt : v ∈ t
    · rw [ih hs.2 (k + 1) v hvt]
      have hva : v ≤ a := hs.1 v hvt
      rw [List.countP_cons]
      simp only [hva, decide_eq_true_eq, if_pos]
      push_cast
      ring_nf
    · have hva : v = a := by
        rcases List.mem_cons.1 hv with h | h
        · exact h
        · exact absurd h hvt
      rw [pyDict_enum_not_mem t (k + 1) v hvt]
      have hcount : t.countP (fun w => decide (v ≤ w)) = 0 := by
        rw [List.countP_eq_zero]
        intro w hw
        simp only [decide_eq_true_eq]
        intro hvw
        have hwa : w ≤ a := hs.1 w hw
        have : w = v := le_antisymm (hva ▸ hwa) hvw
        exact hvt (this ▸ hw)
      rw [List.countP_cons, hcount]
      simp [hva]

lemma foldl_update_nodup (G : ℚ → Option ℚ → Option ℚ) :
    ∀ (ks : List ℚ) (m : ℚ → Option ℚ) (w : ℚ), ks.Nodup →
      List.foldl (fun m value => fun x => if x = value then G value (m value) else m x) m ks w =
        if w ∈ ks then G w (m w) else m w := by
  intro ks
  induction ks with
  | nil => intro m w _; simp
  | cons kk rest ih =>
    intro m w hnd
    rw [List.nodup_cons] at hnd
    rw [List.foldl_cons, ih _ w hnd.2]
    by_cases hw : w ∈ rest
    · have hwk : w ≠ kk := fun h => hnd.1 (h ▸ hw)
      simp [hw, hwk]
    · by_cases hwk : w = kk
      · subst hwk
        simp [hw, hnd.1]
      · simp [hw, hwk]

/-! ### Lemmas: characterizing rank -/

lemma sumRangeDown_eq (c : ℕ) : ∀ p : ℚ,
    sumRangeDown p c = c * p - c * (c - 1) / 2 := by
  induction c with
  | zero => intro p; simp [sumRangeDown]
  | succ c ih =>
    intro p
    rw [sumRangeDown, ih (p - 1)]
    push_cast
    ring

lemma sortedDesc_sorted (values : List ℚ) : List.Sorted descLE (sortedDesc values) :=
  List.sorted_insertionSort descLE values

lemma sortedDesc_perm (values : List ℚ) : List.Perm (sortedDesc values) values :=
  List.perm_insertionSort descLE values

/-- The final rank of every value present in the input: the 1-based
descending position of the last element of its run (the number of pooled
elements ≥ it) minus (count - 1)/2. -/
lemma rank_eq_of_mem (values : List ℚ) (v : ℚ) (hv : v ∈ values) :
    rank values v =
      some ((values.countP (fun w => decide (v ≤ w)) : ℚ) - ((values.count v : ℚ) - 1) / 2) := by
  have hbase : pyDict ((pyEnum 0 (sortedDesc values)).map (fun iv => (iv.2, ((iv.1 + 1 : ℕ) : ℚ)))) v
      = some ((values.countP (fun w => decide (v ≤ w)) : ℚ)) := by
    have hmem : v ∈ sortedDesc values := (sortedDesc_perm values).mem_iff.2 hv
    rw [pyDict_enum_rank (sortedDesc values) (sortedDesc_sorted values) 0 v hmem]
    rw [(sortedDesc_perm values).countP_eq]
    norm_num
  have hnd : ((values.dedup).filter (fun v => decide (1 < values.count v))).Nodup :=
    (List.nodup_dedup values).filter _
  rw [rank, foldl_update_nodup
    (fun value o => o.map (fun r => sumRangeDown r (values.count value) / ((values.count value : ℕ) : ℚ)))
    _ _ v hnd, hbase]
  by_cases hmem : v ∈ (values.dedup).filter (fun v => decide (1 < values.count v))
  · have hc : 1 < values.count v := by
      have := (List.mem_filter.1 hmem).2
      exact of_decide_eq_true this
    have hcz : ((values.count v : ℕ) : ℚ) ≠ 0 :=
      Nat.cast_ne_zero.2 (by omega)
    rw [if_pos hmem]
    simp only [Option.map_some']
    rw [sumRangeDown_eq]
    congr 1
    field_simp
    ring
  · have hc : values.count v = 1 := by
      have h1 : 1 ≤ values.count v := List.count_pos_iff.2 hv
      by_contra hne
      have : 1 < values.count v := lt_of_le_of_ne h1 (fun h => hne h.symm)
      exact hmem (List.mem_filter.2 ⟨List.mem_dedup.2 hv, decide_eq_true this⟩)
    rw [if_neg hmem, hc]
    norm_num

/-- The empty input yields the empty mapping. -/
lemma rank_nil (v : ℚ) : rank [] v = none := rfl

/-! ### Lemmas: list sums and the pair-counting identity behind the total rank -/

lemma sum_map_add {α : Type} (l : List α) (f g : α → ℚ) :
    (l.map (fun x => f x + g x)).sum = (l.map f).sum + (l.map g).sum := by
  induction l with
  | nil => simp
  | cons a t ih => simp only [List.map_cons, List.sum_cons, ih]; ring

lemma sum_map_sub {α : Type} (l : List α) (f g : α → ℚ) :
    (l.map (fun x => f x - g x)).sum = (l.map f).sum - (l.map g).sum := by
  induction l with
  | nil => simp
  | cons a t ih => simp only [List.map_cons, List.sum_cons, ih]; ring

lemma sum_map_const {α : Type} (l : List α) (q : ℚ) :
    (l.map (fun _ => q)).sum = (l.length : ℚ) * q := by
  induction l with
  | nil => simp
  | cons a t ih => simp only [List.map_cons, List.sum_cons, List.length_cons, ih]; push_cast; ring

lemma sum_map_div {α : Type} (l : List α) (f : α → ℚ) (q : ℚ) :
    (l.map (fun x => f x / q)).sum = (l.map f).sum / q := by
  induction l with
  | nil => simp
  | cons a t ih => simp only [List.map_cons, List.sum_cons, ih]; ring

lemma sum_map_comm {α : Type} (l1 l2 : List α) (f : α → α → ℚ) :
    (l1.map (fun a => (l2.map (fun b => f a b)).sum)).sum =
      (l2.map (fun b => (l1.map (fun a => f a b)).sum)).sum := by
  induction l1 with
  | nil =>
    simp only [List.map_nil, List.sum_nil]
    rw [sum_map_const]
    ring
  | cons a t ih =>
    simp only [List.map_cons, List.sum_cons]
    rw [sum_map_add, ih]

lemma countP_cast_sum {α : Type} (l : List α) (p : α → Bool) :
    ((l.countP p : ℕ) : ℚ) = (l.map (fun w => if p w = true then (1 : ℚ) else 0)).sum := by
  induction l with
  | nil => simp
  | cons a t ih =>
    rw [List.countP_cons]
    by_cases h : p a <;> simp [h, ih] <;> ring

lemma count_cast_sum (l : List ℚ) (v : ℚ) :
    ((l.count v : ℕ) : ℚ) = (l.map (fun w => if w = v then (1 : ℚ) else 0)).sum := by
  induction l with
  | nil => simp
  | cons a t ih =>
    rw [List.count_cons]
    by_cases h : a = v <;> simp [h, ih] <;> ring

lemma two_mul_sum_countP_le (l : List ℚ) :
    2 * (l.map (fun v => ((l.countP (fun w => decide (v ≤ w)) : ℕ) : ℚ))).sum =
      (l.length : ℚ) ^ 2 + (l.map (fun v => ((l.count v : ℕ) : ℚ))).sum := by
  have hle : ∀ v : ℚ, ((l.countP (fun w => decide (v ≤ w)) : ℕ) : ℚ) =
      (l.map (fun w => if v ≤ w then (1 : ℚ) else 0)).sum := by
    intro v
    rw [countP_cast_sum]
    congr 1
    exact List.map_congr_left (fun w _ => by by_cases h : v ≤ w <;> simp [h])
  have hcnt : ∀ v : ℚ, ((l.count v : ℕ) : ℚ) =
      (l.map (fun w => if w = v then (1 : ℚ) else 0)).sum := count_cast_sum l
  rw [List.map_congr_left (fun v _ => hle v), List.map_congr_left (fun v _ => hcnt v)]
  have hsplit : ∀ v : ℚ, (l.map (fun w => if v ≤ w then (1 : ℚ) else 0)).sum =
      (l.map (fun w => if v < w then (1 : ℚ) else 0)).sum +
        (l.map (fun w => if w = v then (1 : ℚ) else 0)).sum := by
    intro v
    rw [← sum_map_add]
    exact congrArg _ (List.map_congr_left (fun w _ => by
      rcases lt_trichotomy v w with h | h | h
      · simp [le_of_lt h, h, ne_of_gt h]
      · subst h; simp
      · simp [not_le.2 h, lt_asymm h, ne_of_lt h]))
  have hcompl : ∀ v : ℚ, (l.map (fun w => if v ≤ w then (1 : ℚ) else 0)).sum +
      (l.map (fun w => if w < v then (1 : ℚ) else 0)).sum = (l.length : ℚ) := by
    intro v
    rw [← sum_map_add]
    have hone : (l.map (fun w => (if v ≤ w then (1 : ℚ) else 0) + (if w < v then (1 : ℚ) else 0)))
        = l.map (fun _ => (1 : ℚ)) :=
      List.map_congr_left (fun w _ => by
        by_cases h : v ≤ w
        · simp [h, not_lt.2 h]
        · simp [h, lt_of_not_ge h])
    rw [hone, sum_map_const]; ring
  have hswap : (l.map (fun v => (l.map (fun w => if w < v then (1 : ℚ) else 0)).sum)).sum =
      (l.map (fun v => (l.map (fun w => if v < w then (1 : ℚ) else 0)).sum)).sum := by
    exact sum_map_comm l l (fun v w => if w < v then (1 : ℚ) else 0)
  have e1 : (l.map (fun v => (l.map (fun w => if v ≤ w then (1 : ℚ) else 0)).sum)).sum +
      (l.map (fun v => (l.map (fun w => if w < v then (1 : ℚ) else 0)).sum)).sum =
        (l.length : ℚ) ^ 2 := by
    rw [← sum_map_add, List.map_congr_left (fun v _ => hcompl v), sum_map_const]
    ring
  have e2 : (l.map (fun v => (l.map (fun w => if v ≤ w then (1 : ℚ) else 0)).sum)).sum =
      (l.map (fun v => (l.map (fun w => if v < w then (1 : ℚ) else 0)).sum)).sum +
        (l.map (fun v => (l.map (fun w => if w = v then (1 : ℚ) else 0)).sum)).sum := by
    rw [← sum_map_add, List.map_congr_left (fun v _ => hsplit v)]
  linarith [e1, e2, hswap]

/-- The ranks summed over all occurrences equal n(n+1)/2 regardless of ties. -/
lemma rank_total (values : List ℚ) :
    (values.map (fun v => (rank values v).getD 0)).sum =
      (values.length : ℚ) * ((values.length : ℚ) + 1) / 2 := by
  have hcongr : values.map (fun v => (rank values v).getD 0) =
      values.map (fun v => ((values.countP (fun w => decide (v ≤ w)) : ℕ) : ℚ) -
        (((values.count v : ℕ) : ℚ) - 1) / 2) :=
    List.map_congr_left (fun v hv => by rw [rank_eq_of_mem values v hv]; rfl)
  rw [hcongr, sum_map_sub]
  rw [show (values.map (fun v => (((values.count v : ℕ) : ℚ) - 1) / 2)) =
    values.map (fun v => (fun v => ((values.count v : ℕ) : ℚ) - 1) v / 2) from rfl]
  rw [sum_map_div, sum_map_sub, sum_map_const]
  have h2 := two_mul_sum_countP_le values
  linarith [h2]

/-- The pooled rank lists of mannwhitneyu sum to n(n+1)/2 over both samples. -/
lemma pooled_rank_sum (x1 x2 : List ℚ) :
    (x1.map (fun el => (rank (x1 ++ x2) el).getD 0)).sum +
      (x2.map (fun el => (rank (x1 ++ x2) el).getD 0)).sum =
        ((x1.length + x2.length : ℕ) : ℚ) * (((x1.length + x2.length : ℕ) : ℚ) + 1) / 2 := by
  have := rank_total (x1 ++ x2)
  rw [List.map_append, List.sum_append, List.length_append] at this
  rw [this]

/-- The Mann-Whitney identity: U1 + U2 = n1*n2 for the pipeline ranks. -/
lemma U_add (x1 x2 : List ℚ) :
    U1 (x1.map (fun el => (rank (x1 ++ x2) el).getD 0))
        (x2.map (fun el => (rank (x1 ++ x2) el).getD 0)) +
      U2 (x1.map (fun el => (rank (x1 ++ x2) el).getD 0))
        (x2.map (fun el => (rank (x1 ++ x2) el).getD 0)) =
      ((x1.map (fun el => (rank (x1 ++ x2) el).getD 0)).length : ℚ) *
        ((x2.map (fun el => (rank (x1 ++ x2) el).getD 0)).length : ℚ) := by
  have hsum := pooled_rank_sum x1 x2
  rw [U1, U2]
  simp only [List.length_map] at *
  push_cast at *
  linarith [hsum]

/-! ### Lemmas: the tie-correction term is bounded, so sq2 is never negative -/

lemma sum_ind_nodup (L : List ℚ) (a : ℚ) (h : L.Nodup) :
    (L.map (fun v => if a = v then (1 : ℚ) else 0)).sum = if a ∈ L then 1 else 0 := by
  induction L with
  | nil => simp
  | cons b t ih =>
    rw [List.nodup_cons] at h
    simp only [List.map_cons, List.sum_cons]
    by_cases hab : a = b
    · subst hab
      rw [ih h.2]
      simp [h.1]
    · rw [ih h.2]
      simp [hab]

lemma sum_count_dedup_q : ∀ l : List ℚ,
    ((l.dedup).map (fun v => ((l.count v : ℕ) : ℚ))).sum = (l.length : ℚ) := by
  intro l
  induction l with
  | nil => simp
  | cons a t ih =>
    have hcongr : ∀ L : List ℚ, L.map (fun v => (((a :: t).count v : ℕ) : ℚ)) =
        L.map (fun v => (((t.count v : ℕ) : ℚ) + if a = v then (1 : ℚ) else 0)) := by
      intro L
      refine List.map_congr_left (fun v _ => ?_)
      rw [List.count_cons]
      by_cases h : a = v <;> simp [h]
    by_cases h : a ∈ t
    · rw [List.dedup_cons_of_mem h, hcongr, sum_map_add, ih,
        sum_ind_nodup _ _ (List.nodup_dedup t)]
      simp [List.mem_dedup.2 h]
    · rw [List.dedup_cons_of_not_mem h, List.map_cons, List.sum_cons, hcongr, sum_map_add, ih,
        sum_ind_nodup _ _ (List.nodup_dedup t)]
      have h0 : t.count a = 0 := List.count_eq_zero.2 h
      rw [List.count_cons, h0]
      simp only [List.mem_dedup]
      simp [h]
      push_cast
      ring

lemma sum_cube_le (ks : List ℕ) :
    ((ks.map (fun k : ℕ => (k : ℚ) ^ 3)).sum) ≤ ((ks.map (fun k : ℕ => (k : ℚ))).sum) ^ 3 := by
  induction ks with
  | nil => simp
  | cons k t ih =>
    simp only [List.map_cons, List.sum_cons]
    have hk : (0 : ℚ) ≤ (k : ℚ) := Nat.cast_nonneg k
    have ht : (0 : ℚ) ≤ (t.map (fun k : ℕ => (k : ℚ))).sum :=
      List.sum_nonneg (by intro x hx; obtain ⟨y, _, rfl⟩ := List.mem_map.1 hx; exact Nat.cast_nonneg y)
    nlinarith [ih, hk, ht, mul_nonneg (mul_nonneg hk hk) ht, mul_nonneg hk (mul_nonneg ht ht)]

lemma filter_gt_one_sum (ks : List ℕ) :
    (((ks.filter (fun c => decide (1 < c))).map (fun c : ℕ => ((c : ℚ) ^ 3 - (c : ℚ)) / 12)).sum) =
      ((ks.map (fun c : ℕ => ((c : ℚ) ^ 3 - (c : ℚ)) / 12)).sum) := by
  induction ks with
  | nil => simp
  | cons k t ih =>
    by_cases h : 1 < k
    · rw [List.filter_cons_of_pos (by simpa using h)]
      simp only [List.map_cons, List.sum_cons, ih]
    · rw [List.filter_cons_of_neg (by simpa using h)]
      have hk : k = 0 ∨ k = 1 := by omega
      have hz : ((k : ℚ) ^ 3 - (k : ℚ)) / 12 = 0 := by
        rcases hk with rfl | rfl <;> norm_num
      simp only [List.map_cons, List.sum_cons, ih, hz, zero_add]

/-- The accumulator sigma_term never exceeds (n^3 - n)/12, so the second sqrt argument of
calculate_z is never negative: the code never raises a math domain error. -/
lemma sigma_term_le (rs : List ℚ) :
    sigma_term rs ≤ (((rs.length : ℚ)) ^ 3 - (rs.length : ℚ)) / 12 := by
  rw [sigma_term, filter_gt_one_sum]
  rw [List.map_map]
  have hdiv : ((rs.dedup).map ((fun c : ℕ => ((c : ℚ) ^ 3 - (c : ℚ)) / 12) ∘ fun v => rs.count v)) =
      (rs.dedup).map (fun v => (((rs.count v : ℕ) : ℚ) ^ 3 - ((rs.count v : ℕ) : ℚ)) / 12) := rfl
  rw [hdiv]
  rw [show ((rs.dedup).map (fun v => (((rs.count v : ℕ) : ℚ) ^ 3 - ((rs.count v : ℕ) : ℚ)) / 12)) =
    (rs.dedup).map (fun v => (fun v => (((rs.count v : ℕ) : ℚ) ^ 3 - ((rs.count v : ℕ) : ℚ))) v / 12)
      from rfl]
  rw [sum_map_div, sum_map_sub, sum_count_dedup_q]
  have hcube : (((rs.dedup).map (fun v => (((rs.count v : ℕ) : ℚ)) ^ 3)).sum) ≤
      ((rs.length : ℚ)) ^ 3 := by
    have h1 := sum_cube_le ((rs.dedup).map (fun v => rs.count v))
    rw [List.map_map, List.map_map] at h1
    have h2 : ((rs.dedup).map ((fun k : ℕ => (k : ℚ)) ∘ fun v => rs.count v)) =
        (rs.dedup).map (fun v => ((rs.count v : ℕ) : ℚ)) := rfl
    have h3 : ((rs.dedup).map ((fun k : ℕ => (k : ℚ) ^ 3) ∘ fun v => rs.count v)) =
        (rs.dedup).map (fun v => (((rs.count v : ℕ) : ℚ)) ^ 3) := rfl
    rw [h2, h3] at h1
    calc (((rs.dedup).map (fun v => (((rs.count v : ℕ) : ℚ)) ^ 3)).sum)
        ≤ (((rs.dedup).map (fun v => ((rs.count v : ℕ) : ℚ))).sum) ^ 3 := h1
      _ = ((rs.length : ℚ)) ^ 3 := by rw [sum_count_dedup_q]
  linarith [hcube]

/-! ### Lemmas: inverting calculate_z and mannwhitneyu, and facts about erf -/

lemma calculate_z_ok (r1 r2 : List ℚ) (z : ℝ) (h : calculate_z r1 r2 = .ok z) :
    U1 r1 r2 + U2 r1 r2 = (r1.length : ℚ) * (r2.length : ℚ) ∧
      ∃ sq1 sq2 : ℚ, 0 < sq1 ∧ 0 < sq2 ∧
        z = ((min (U1 r1 r2) (U2 r1 r2) - (r1.length : ℚ) * (r2.length : ℚ) / 2 : ℚ) : ℝ) /
          (Real.sqrt (sq1 : ℝ) * Real.sqrt (sq2 : ℝ)) := by
  simp only [calculate_z] at h
  split_ifs at h with h1 h2 h3 h4 h5
  all_goals try exact (Except.noConfusion h)
  refine ⟨not_not.1 (by simpa using h1), ?_⟩
  refine ⟨(r1.length : ℚ) * (r2.length : ℚ) /
      (((r1.length : ℚ) + (r2.length : ℚ)) * (((r1.length : ℚ) + (r2.length : ℚ)) - 1)),
    (((r1.length : ℚ) + (r2.length : ℚ)) ^ 3 - ((r1.length : ℚ) + (r2.length : ℚ))) / 12 -
      sigma_term (r1 ++ r2), ?_, ?_, ?_⟩
  · rcases not_or.1 h5 with ⟨ha, _⟩
    exact lt_of_le_of_ne (not_lt.1 h3) (Ne.symm ha)
  · rcases not_or.1 h5 with ⟨_, hb⟩
    exact lt_of_le_of_ne (not_lt.1 h4) (Ne.symm hb)
  · have := h
    injection this with hz
    exact hz.symm

lemma mannwhitneyu_ok (x1 x2 : List ℚ) (p : ℚ) (s : Bool) (pv : ℝ)
    (h : mannwhitneyu x1 x2 p = .ok (s, pv)) :
    ∃ z : ℝ, calculate_z (x1.map (fun el => (rank (x1 ++ x2) el).getD 0))
        (x2.map (fun el => (rank (x1 ++ x2) el).getD 0)) = .ok z ∧
      pv = z_to_p z ∧ s = (if z_to_p z < (p : ℝ) / 2 then true else false) := by
  simp only [mannwhitneyu] at h
  cases hcz : calculate_z (x1.map (fun el => (rank (x1 ++ x2) el).getD 0))
      (x2.map (fun el => (rank (x1 ++ x2) el).getD 0)) with
  | error e => rw [hcz] at h; exact (Except.noConfusion h)
  | ok z =>
    rw [hcz] at h
    injection h with hp
    injection hp with hs hpv
    exact ⟨z, rfl, hpv.symm, hs.symm⟩

lemma erf_zero : erf 0 = 0 := by
  rw [erf, intervalIntegral.integral_same, mul_zero]

lemma erf_nonpos {x : ℝ} (hx : x ≤ 0) : erf x ≤ 0 := by
  rw [erf]
  have hc : (0 : ℝ) ≤ 2 / Real.sqrt Real.pi := by positivity
  have hI : (∫ t in (0 : ℝ)..x, Real.exp (-(t ^ 2))) ≤ 0 := by
    rw [intervalIntegral.integral_symm]
    have h0 : (0 : ℝ) ≤ ∫ t in x..(0 : ℝ), Real.exp (-(t ^ 2)) :=
      intervalIntegral.integral_nonneg hx (fun u _ => (Real.exp_pos _).le)
    linarith
  exact mul_nonpos_iff.2 (Or.inl ⟨hc, hI⟩)

lemma z_to_p_zero : z_to_p 0 = 1 / 2 := by
  rw [z_to_p, zero_div, erf_zero]
  norm_num

lemma z_to_p_le_half {z : ℝ} (hz : z ≤ 0) : z_to_p z ≤ 1 / 2 := by
  rw [z_to_p]
  have h1 : erf (z / Real.sqrt 2) ≤ 0 :=
    erf_nonpos (div_nonpos_iff.2 (Or.inr ⟨hz, Real.sqrt_nonneg 2⟩))
  nlinarith [h1]

lemma calculate_z_ok_nonpos (r1 r2 : List ℚ) (z : ℝ) (h : calculate_z r1 r2 = .ok z) :
    z ≤ 0 := by
  obtain ⟨hU, sq1, sq2, hs1, hs2, hz⟩ := calculate_z_ok r1 r2 z h
  rw [hz]
  apply div_nonpos_iff.2
  refine Or.inr ⟨?_, mul_nonneg (Real.sqrt_nonneg _) (Real.sqrt_nonneg _)⟩
  have hmin : min (U1 r1 r2) (U2 r1 r2) - (r1.length : ℚ) * (r2.length : ℚ) / 2 ≤ 0 := by
    rcases min_le_iff.2 (Or.inl (le_refl (U1 r1 r2))) with h1
    have hm1 : min (U1 r1 r2) (U2 r1 r2) ≤ U1 r1 r2 := min_le_left _ _
    have hm2 : min (U1 r1 r2) (U2 r1 r2) ≤ U2 r1 r2 := min_le_right _ _
    linarith [hU, hm1, hm2]
  exact_mod_cast Rat.cast_nonpos.2 hmin

lemma calculate_z_ok_symm (r1 : List ℚ) (z : ℝ) (h : calculate_z r1 r1 = .ok z) : z = 0 := by
  obtain ⟨hU, sq1, sq2, hs1, hs2, hz⟩ := calculate_z_ok r1 r1 z h
  have heq : U1 r1 r1 = U2 r1 r1 := by rw [U1, U2]
  have hmin : min (U1 r1 r1) (U2 r1 r1) - (r1.length : ℚ) * (r1.length : ℚ) / 2 = 0 := by
    rw [← heq, min_self]
    rw [← heq] at hU
    linarith [hU]
  rw [hz, hmin]
  norm_num

/-! ### Lemmas: degenerate rank-sum inputs always fail with ZeroDivisionError -/

lemma len_term_nonneg (n1 n2 : ℕ) :
    (0 : ℚ) ≤ ((n1 : ℚ) + n2) * (((n1 : ℚ) + n2) - 1) := by
  have hc : ((n1 : ℚ) + n2) = ((n1 + n2 : ℕ) : ℚ) := by push_cast; ring
  rw [hc]
  rcases Nat.eq_zero_or_pos (n1 + n2) with h | h
  · rw [h]; norm_num
  · have h1 : (1 : ℚ) ≤ ((n1 + n2 : ℕ) : ℚ) := by exact_mod_cast h
    nlinarith

lemma sq2_nonneg (r1 r2 : List ℚ) :
    (0 : ℚ) ≤ ((((r1.length : ℚ) + r2.length) ^ 3 - ((r1.length : ℚ) + r2.length)) / 12 -
      sigma_term (r1 ++ r2)) := by
  have hlen : (((r1 ++ r2).length : ℕ) : ℚ) = (r1.length : ℚ) + r2.length := by
    rw [List.length_append]; push_cast; ring
  have := sigma_term_le (r1 ++ r2)
  rw [hlen] at this
  linarith

lemma calculate_z_degenerate (r1 r2 : List ℚ)
    (hU : U1 r1 r2 + U2 r1 r2 = (r1.length : ℚ) * (r2.length : ℚ))
    (hdeg : ((r1.length : ℚ) + r2.length) * (((r1.length : ℚ) + r2.length) - 1) = 0 ∨
      (r1.length : ℚ) * (r2.length : ℚ) /
        (((r1.length : ℚ) + r2.length) * (((r1.length : ℚ) + r2.length) - 1)) = 0 ∨
      ((((r1.length : ℚ) + r2.length) ^ 3 - ((r1.length : ℚ) + r2.length)) / 12 -
        sigma_term (r1 ++ r2)) = 0) :
    calculate_z r1 r2 = .error .zeroDivisionError := by
  simp only [calculate_z]
  rw [if_neg (fun hne => hne hU)]
  by_cases hz : ((r1.length : ℚ) + r2.length) * (((r1.length : ℚ) + r2.length) - 1) = 0
  · rw [if_pos hz]
  · rw [if_neg hz]
    have hsq1 : (0 : ℚ) ≤ (r1.length : ℚ) * (r2.length : ℚ) /
        (((r1.length : ℚ) + r2.length) * (((r1.length : ℚ) + r2.length) - 1)) :=
      div_nonneg (mul_nonneg (Nat.cast_nonneg _) (Nat.cast_nonneg _))
        (len_term_nonneg r1.length r2.length)
    rw [if_neg (not_lt.2 hsq1), if_neg (not_lt.2 (sq2_nonneg r1 r2))]
    have hor : (r1.length : ℚ) * (r2.length : ℚ) /
        (((r1.length : ℚ) + r2.length) * (((r1.length : ℚ) + r2.length) - 1)) = 0 ∨
        ((((r1.length : ℚ) + r2.length) ^ 3 - ((r1.length : ℚ) + r2.length)) / 12 -
          sigma_term (r1 ++ r2)) = 0 := by
      rcases hdeg with h | h | h
      · exact absurd h hz
      · exact Or.inl h
      · exact Or.inr h
    rw [if_pos hor]

/-- The function calculate_z never raises the math domain error: both sqrt arguments are
nonnegative whenever they are computed. -/
lemma calculate_z_no_domain (r1 r2 : List ℚ) :
    calculate_z r1 r2 ≠ .error .domainError := by
  simp only [calculate_z]
  split_ifs with h1 h2 h3 h4 h5
  · intro h; exact (PyErr.noConfusion (Except.error.inj h))
  · intro h; exact (PyErr.noConfusion (Except.error.inj h))
  · exact absurd h3 (not_lt.2 (div_nonneg (mul_nonneg (Nat.cast_nonneg _) (Nat.cast_nonneg _))
      (len_term_nonneg r1.length r2.length)))
  · exact absurd h4 (not_lt.2 (sq2_nonneg r1 r2))
  · intro h; exact (PyErr.noConfusion (Except.error.inj h))
  · intro h; exact (Except.noConfusion h)

lemma mannwhitneyu_of_calculate_z_error (x1 x2 : List ℚ) (p : ℚ) (e : PyErr)
    (h : calculate_z (x1.map (fun el => (rank (x1 ++ x2) el).getD 0))
      (x2.map (fun el => (rank (x1 ++ x2) el).getD 0)) = .error e) :
    mannwhitneyu x1 x2 p = .error e := by
  simp only [mannwhitneyu, h]

/-! ### Concrete evaluations used by witnesses and counterexamples -/

lemma ranks_eval_12 :
    ([1, 2] : List ℚ).map (fun el => (rank ([1, 2] ++ [1, 2]) el).getD 0) = [7/2, 3/2] := by
  norm_num [rank, sortedDesc, List.insertionSort, List.orderedInsert, descLE, pyEnum, pyDict,
    List.dedup, List.count_cons, sumRangeDown]

lemma cz_eval_12 : calculate_z [7/2, 3/2] [7/2, 3/2] = .ok 0 := by
  norm_num [calculate_z, U1, U2, sigma_term, List.dedup, List.count_cons]

lemma mwu_eval_12 : mannwhitneyu [1, 2] [1, 2] (1/20) = .ok (false, 1/2) := by
  simp only [mannwhitneyu, ranks_eval_12, cz_eval_12, z_to_p_zero]
  norm_num

set_option maxHeartbeats 2000000 in
lemma ranks_eval_15 :
    ([1, 2, 3, 4, 5] : List ℚ).map
      (fun el => (rank ([1, 2, 3, 4, 5] ++ [1, 2, 3, 4, 5]) el).getD 0) =
      [19/2, 15/2, 11/2, 7/2, 3/2] := by
  have h := fun (v : ℚ) (hv : v ∈ (([1, 2, 3, 4, 5] ++ [1, 2, 3, 4, 5]) : List ℚ)) =>
    rank_eq_of_mem (([1, 2, 3, 4, 5] ++ [1, 2, 3, 4, 5]) : List ℚ) v hv
  simp only [List.map_cons, List.map_nil]
  rw [h 1 (by norm_num), h 2 (by norm_num), h 3 (by norm_num), h 4 (by norm_num),
    h 5 (by norm_num)]
  norm_num [List.countP_cons, List.count_cons]

lemma sigma_eval_15 :
    sigma_term [19/2, 15/2, 11/2, 7/2, 3/2, 19/2, 15/2, 11/2, 7/2, 3/2] = 5/2 := by
  rw [sigma_term]
  rw [List.dedup_cons_of_mem (by norm_num), List.dedup_cons_of_mem (by norm_num),
    List.dedup_cons_of_mem (by norm_num), List.dedup_cons_of_mem (by norm_num),
    List.dedup_cons_of_mem (by norm_num),
    List.dedup_cons_of_not_mem (by norm_num), List.dedup_cons_of_not_mem (by norm_num),
    List.dedup_cons_of_not_mem (by norm_num), List.dedup_cons_of_not_mem (by norm_num),
    List.dedup_cons_of_not_mem (by norm_num), List.dedup_nil]
  norm_num [List.count_cons]

set_option maxHeartbeats 1000000 in
lemma cz_eval_15 :
    calculate_z [19/2, 15/2, 11/2, 7/2, 3/2] [19/2, 15/2, 11/2, 7/2, 3/2] = .ok 0 := by
  norm_num [calculate_z, U1, U2, sigma_eval_15]

lemma mwu_eval_15 :
    mannwhitneyu [1, 2, 3, 4, 5] [1, 2, 3, 4, 5] (1/20) = .ok (false, 1/2) := by
  simp only [mannwhitneyu, ranks_eval_15, cz_eval_15, z_to_p_zero]
  norm_num

lemma mwu_eval_empty : mannwhitneyu [] [] (1/20) = .error .zeroDivisionError := by
  norm_num [mannwhitneyu, calculate_z, U1, U2]

/-! ### Claim theorems: rank-sum test -/

/-- C5: for every pair of non-empty samples whose ranks are produced by the
shared rank assignment over the pooled values, U1 + U2 = n1*n2, so the
internal-consistency assertion in calculate_z never fires. -/
theorem u_statistic_consistency (x1 x2 : List ℚ) (h1 : x1 ≠ []) (h2 : x2 ≠ []) :
    U1 (x1.map (fun el => (rank (x1 ++ x2) el).getD 0))
        (x2.map (fun el => (rank (x1 ++ x2) el).getD 0)) +
      U2 (x1.map (fun el => (rank (x1 ++ x2) el).getD 0))
        (x2.map (fun el => (rank (x1 ++ x2) el).getD 0)) =
      (x1.length : ℚ) * (x2.length : ℚ) ∧
    calculate_z (x1.map (fun el => (rank (x1 ++ x2) el).getD 0))
        (x2.map (fun el => (rank (x1 ++ x2) el).getD 0)) ≠ .error .assertionError := by
  have hU := U_add x1 x2
  simp only [List.length_map] at hU
  refine ⟨hU, ?_⟩
  simp only [calculate_z, List.length_map]
  rw [if_neg (fun hne => hne hU)]
  split_ifs <;> simp

theorem u_statistic_consistency_witness :
    (([1] : List ℚ) ≠ [] ∧ ([2] : List ℚ) ≠ []) ∧
    (U1 (([1] : List ℚ).map (fun el => (rank (([1] : List ℚ) ++ [2]) el).getD 0))
        (([2] : List ℚ).map (fun el => (rank (([1] : List ℚ) ++ [2]) el).getD 0)) +
      U2 (([1] : List ℚ).map (fun el => (rank (([1] : List ℚ) ++ [2]) el).getD 0))
        (([2] : List ℚ).map (fun el => (rank (([1] : List ℚ) ++ [2]) el).getD 0)) =
      ((([1] : List ℚ).length : ℚ) * (([2] : List ℚ).length : ℚ)) ∧
    calculate_z (([1] : List ℚ).map (fun el => (rank (([1] : List ℚ) ++ [2]) el).getD 0))
        (([2] : List ℚ).map (fun el => (rank (([1] : List ℚ) ++ [2]) el).getD 0)) ≠
      .error .assertionError) :=
  ⟨⟨by simp, by simp⟩, u_statistic_consistency [1] [2] (by simp) (by simp)⟩

/-- C10: whenever the rank-sum test completes without error, the returned
p-value is at most 0.5 (U = min(U1,U2) never exceeds the mean, so z <= 0 and
Phi(z) <= 1/2); a p-value near 1.0 is unreachable. -/
theorem pval_at_most_half (x1 x2 : List ℚ) (p : ℚ) (s : Bool) (pv : ℝ)
    (h : mannwhitneyu x1 x2 p = .ok (s, pv)) : pv ≤ 1 / 2 := by
  obtain ⟨z, hz, hpv, _⟩ := mannwhitneyu_ok x1 x2 p s pv h
  rw [hpv]
  exact z_to_p_le_half (calculate_z_ok_nonpos _ _ z hz)

theorem pval_at_most_half_witness :
    mannwhitneyu [1, 2] [1, 2] (1/20) = .ok (false, 1/2) ∧ ((1 : ℝ)/2) ≤ 1/2 :=
  ⟨mwu_eval_12, pval_at_most_half [1, 2] [1, 2] (1/20) false (1/2) mwu_eval_12⟩

/-- C2 (amended): for identical samples the two U statistics agree, and when
the test completes without error the returned p-value is exactly 0.5 (not
near 1.0) and the result is not significant (for any threshold p <= 1). -/
theorem rank_sum_identical_amended (x : List ℚ) (p : ℚ) (hp : p ≤ 1) :
    U1 (x.map (fun el => (rank (x ++ x) el).getD 0))
        (x.map (fun el => (rank (x ++ x) el).getD 0)) =
      U2 (x.map (fun el => (rank (x ++ x) el).getD 0))
        (x.map (fun el => (rank (x ++ x) el).getD 0)) ∧
    ∀ s pv, mannwhitneyu x x p = .ok (s, pv) → s = false ∧ pv = 1 / 2 := by
  refine ⟨by rw [U1, U2], ?_⟩
  intro s pv h
  obtain ⟨z, hz, hpv, hs⟩ := mannwhitneyu_ok x x p s pv h
  have hz0 : z = 0 := calculate_z_ok_symm _ z hz
  subst hz0
  rw [z_to_p_zero] at hpv hs
  refine ⟨?_, hpv⟩
  rw [hs, if_neg]
  intro hlt
  have hp1 : (p : ℝ) ≤ 1 := by exact_mod_cast hp
  linarith

theorem rank_sum_identical_amended_witness :
    (1 : ℚ) / 20 ≤ 1 ∧ (false = false ∧ (1 / 2 : ℝ) = 1 / 2) :=
  ⟨by norm_num,
   (rank_sum_identical_amended [1, 2] (1 / 20) (by norm_num)).2 false (1 / 2) mwu_eval_12⟩

/-- C2 is false as stated: for x1 = x2 = [1,2,3,4,5] the code returns
p_val = 1/2 exactly (z = 0, Phi(0) = 0.5), which is not near 1.0. -/
theorem rank_sum_identical_cex :
    mannwhitneyu [1, 2, 3, 4, 5] [1, 2, 3, 4, 5] (1/20) = .ok (false, 1/2) ∧
      ¬ ((9 : ℝ) / 10 ≤ 1 / 2) :=
  ⟨mwu_eval_15, by norm_num⟩

/-- C4 (amended): on every degenerate input (an empty sample, combined size
n <= 1, or a standard deviation that evaluates to 0) the rank-sum test fails
by raising ZeroDivisionError from the division itself; it never raises a
math domain error (the sqrt arguments are never negative, so the standard
deviation is never NaN). -/
theorem rank_sum_degenerate_amended :
    (∀ (x1 x2 : List ℚ) (p : ℚ),
      (x1 = [] ∨ x2 = [] ∨ x1.length + x2.length ≤ 1 ∨
        (x1.length : ℚ) * (x2.length : ℚ) /
          (((x1.length : ℚ) + (x2.length : ℚ)) * (((x1.length : ℚ) + (x2.length : ℚ)) - 1)) = 0 ∨
        ((((x1.length : ℚ) + (x2.length : ℚ)) ^ 3 - ((x1.length : ℚ) + (x2.length : ℚ))) / 12 -
          sigma_term (x1.map (fun el => (rank (x1 ++ x2) el).getD 0) ++
            x2.map (fun el => (rank (x1 ++ x2) el).getD 0))) = 0) →
      mannwhitneyu x1 x2 p = .error .zeroDivisionError) ∧
    ∀ (r1 r2 : List ℚ), calculate_z r1 r2 ≠ .error .domainError := by
  constructor
  · intro x1 x2 p hdeg
    apply mannwhitneyu_of_calculate_z_error
    have hU := U_add x1 x2
    apply calculate_z_degenerate _ _ hU
    simp only [List.length_map]
    rcases hdeg with h | h | h | h | h
    · subst h
      right; left
      simp
    · subst h
      right; left
      simp
    · left
      rcases Nat.le_one_iff_eq_zero_or_eq_one.1 h with h0 | h1
      · have hx1 : x1.length = 0 := by omega
        have hx2 : x2.length = 0 := by omega
        rw [hx1, hx2]; norm_num
      · rcases Nat.add_eq_one_iff.1 h1 with ⟨ha, hb⟩ | ⟨ha, hb⟩ <;> rw [ha, hb] <;> norm_num
    · right; left; exact h
    · right; right; exact h
  · exact calculate_z_no_domain

theorem rank_sum_degenerate_amended_witness :
    mannwhitneyu [] [] (1/20) = .error .zeroDivisionError ∧
      calculate_z [] [] ≠ .error .domainError :=
  ⟨rank_sum_degenerate_amended.1 [] [] (1/20) (Or.inl rfl),
   rank_sum_degenerate_amended.2 [] []⟩

/-- C4 is false as stated: on the degenerate input of two empty samples the
code raises ZeroDivisionError (it performs the division and fails), not a
domain error. -/
theorem rank_sum_degenerate_cex :
    mannwhitneyu [] [] (1/20) = .error .zeroDivisionError ∧
      (Except.error PyErr.zeroDivisionError : Except PyErr (Bool × ℝ)) ≠
        Except.error PyErr.domainError :=
  ⟨mwu_eval_empty, by simp⟩

/-! ### Claim theorem: the rank assigner -/

/-- C6: the rank assigner gives a value occurring count times the rank
p - (count - 1)/2, where p is the 1-based position of the last element of
its run when the pooled values are ordered largest-first (equivalently, the
number of pooled elements >= it, counted here on the descending sort);
the ranks summed over all n occurrences equal n(n+1)/2 regardless of ties;
and an empty input yields an empty mapping. -/
theorem rank_assigner_spec :
    (∀ (values : List ℚ) (v : ℚ), v ∈ values →
      rank values v =
        some ((((sortedDesc values).countP (fun w => decide (v ≤ w)) : ℕ) : ℚ) -
          (((values.count v : ℕ) : ℚ) - 1) / 2)) ∧
    (∀ values : List ℚ, (values.map (fun v => (rank values v).getD 0)).sum =
      (values.length : ℚ) * ((values.length : ℚ) + 1) / 2) ∧
    (∀ v : ℚ, rank [] v = none) := by
  refine ⟨?_, rank_total, rank_nil⟩
  intro values v hv
  rw [rank_eq_of_mem values v hv, (sortedDesc_perm values).countP_eq]

theorem rank_assigner_spec_witness :
    ((2 : ℚ) ∈ ([1, 2, 1, 2] : List ℚ)) ∧
    rank [1, 2, 1, 2] 2 =
      some ((((sortedDesc [1, 2, 1, 2]).countP (fun w => decide ((2 : ℚ) ≤ w)) : ℕ) : ℚ) -
        ((([1, 2, 1, 2] : List ℚ).count 2 : ℚ) - 1) / 2) :=
  ⟨by norm_num, rank_assigner_spec.1 [1, 2, 1, 2] 2 (by norm_num)⟩

/-! ### Lemmas: structure of the Holm-Bonferroni computation -/

lemma pyEnum_length {α : Type} : ∀ (l : List α) (k : ℕ), (pyEnum k l).length = l.length := by
  intro l
  induction l with
  | nil => intro k; rfl
  | cons a t ih => intro k; simp [pyEnum, ih]

lemma mem_pyEnum : ∀ (l : List ℚ) (k : ℕ) (pr : ℕ × ℚ),
    pr ∈ pyEnum k l ↔ ∃ j, j < l.length ∧ pr.1 = k + j ∧ l.getD j 0 = pr.2 := by
  intro l
  induction l with
  | nil => intro k pr; simp [pyEnum]
  | cons a t ih =>
    intro k pr
    rw [pyEnum, List.mem_cons, ih (k + 1) pr]
    constructor
    · rintro (rfl | ⟨j, hj, h1, h2⟩)
      · exact ⟨0, by simp⟩
      · exact ⟨j + 1, by simpa using hj, by omega, by simpa using h2⟩
    · rintro ⟨j, hj, h1, h2⟩
      cases j with
      | zero =>
        left
        simp only [List.getD_cons_zero] at h2
        obtain ⟨p1, p2⟩ := pr
        simp at h1 h2
        simp [h1, h2]
      | succ j =>
        right
        exact ⟨j, by simpa using hj, by omega, by simpa using h2⟩

lemma map_fst_pyEnum {α : Type} : ∀ (l : List α) (k : ℕ),
    (pyEnum k l).map Prod.fst = List.range' k l.length := by
  intro l
  induction l with
  | nil => intro k; rfl
  | cons a t ih => intro k; simp [pyEnum, ih, List.range'_succ]

lemma sorted_tup_perm (p : List ℚ) : List.Perm (sorted_pvals_tup p) (pyEnum 0 p) :=
  List.perm_insertionSort keyLE (pyEnum 0 p)

lemma sorted_tup_sorted (p : List ℚ) : List.Sorted keyLE (sorted_pvals_tup p) :=
  List.sorted_insertionSort keyLE (pyEnum 0 p)

lemma sorted_tup_length (p : List ℚ) : (sorted_pvals_tup p).length = p.length := by
  rw [sorted_pvals_tup, List.length_insertionSort, pyEnum_length]

lemma mem_sorted_tup (p : List ℚ) (pr : ℕ × ℚ) :
    pr ∈ sorted_pvals_tup p ↔ pr.1 < p.length ∧ p.getD pr.1 0 = pr.2 := by
  rw [(sorted_tup_perm p).mem_iff, mem_pyEnum]
  constructor
  · rintro ⟨j, hj, h1, h2⟩
    refine ⟨by omega, ?_⟩
    rw [show pr.1 = j from by omega]
    exact h2
  · rintro ⟨h1, h2⟩
    exact ⟨pr.1, h1, by omega, h2⟩

lemma sorted_tup_fst_nodup (p : List ℚ) : ((sorted_pvals_tup p).map Prod.fst).Nodup := by
  have hperm : List.Perm ((sorted_pvals_tup p).map Prod.fst) ((pyEnum 0 p).map Prod.fst) :=
    (sorted_tup_perm p).map Prod.fst
  rw [hperm.nodup_iff, map_fst_pyEnum]
  exact List.nodup_range' 0 p.length

lemma rangeDown_length : ∀ n : ℕ, (rangeDown n).length = n := by
  intro n
  induction n with
  | zero => rfl
  | succ n ih => simp [rangeDown, ih]

lemma rangeDown_getD : ∀ (n i : ℕ), i < n → (rangeDown n).getD i 0 = n - i := by
  intro n
  induction n with
  | zero => intro i h; omega
  | succ n ih =>
    intro i h
    cases i with
    | zero => simp [rangeDown]
    | succ i =>
      rw [rangeDown, List.getD_cons_succ, ih i (by omega)]
      omega

lemma corrected_tup_length (p : List ℚ) : (corrected_pvals_tup p).length = p.length := by
  rw [corrected_pvals_tup, List.length_map, List.length_zip, sorted_tup_length, rangeDown_length]
  exact min_self _

lemma corrected_tup_getD (p : List ℚ) (k : ℕ) (hk : k < p.length) :
    (corrected_pvals_tup p).getD k (0, 0) =
      (((sorted_pvals_tup p).getD k (0, 0)).1,
       ((sorted_pvals_tup p).getD k (0, 0)).2 * ((p.length - k : ℕ) : ℚ)) := by
  have hks : k < (sorted_pvals_tup p).length := by rw [sorted_tup_length]; exact hk
  have hkr : k < (rangeDown p.length).length := by rw [rangeDown_length]; exact hk
  have hkz : k < ((sorted_pvals_tup p).zip (rangeDown p.length)).length := by
    rw [List.length_zip, sorted_tup_length, rangeDown_length, min_self]; exact hk
  rw [corrected_pvals_tup]
  have hkm : k < (((sorted_pvals_tup p).zip (rangeDown p.length)).map
      (fun x => (x.1.1, x.1.2 * (x.2 : ℚ)))).length := by
    rw [List.length_map, List.length_zip, sorted_tup_length, rangeDown_length, min_self]
    exact hk
  rw [List.getD_eq_getElem _ _ hkm, List.getElem_map, List.getElem_zip]
  rw [List.getD_eq_getElem _ _ hks, ← List.getD_eq_getElem (rangeDown p.length) 0 hkr,
    rangeDown_getD p.length k hk]

lemma holm_results_getD (p : List ℚ) (alpha : ℚ) (i : ℕ) (hi : i < p.length) (b : Bool) :
    ((_holm_bonferroni p alpha).1).getD i b = decide (i ∈ holm_trues p alpha) := by
  have hlen : i < ((List.range p.length).map
      (fun i => decide (i ∈ holm_trues p alpha))).length := by
    rw [List.length_map, List.length_range]; exact hi
  show ((List.range p.length).map (fun i => decide (i ∈ holm_trues p alpha))).getD i b = _
  rw [List.getD_eq_getElem _ _ hlen, List.getElem_map, List.getElem_range]

lemma mem_takeTrues : ∀ (l : List (ℕ × ℚ)) (alpha : ℚ) (i : ℕ),
    i ∈ takeTrues l alpha ↔
      ∃ k, k < l.length ∧ (l.getD k (0, 0)).1 = i ∧
        ∀ j, j ≤ k → (l.getD j (0, 0)).2 < alpha := by
  intro l
  induction l with
  | nil => intro alpha i; simp [takeTrues]
  | cons t rest ih =>
    intro alpha i
    rw [takeTrues]
    by_cases h : t.2 < alpha
    · rw [if_pos h, List.mem_cons, ih]
      constructor
      · rintro (rfl | ⟨k, hk, h1, h2⟩)
        · refine ⟨0, by simp, by simp, fun j hj => ?_⟩
          have hj0 : j = 0 := by omega
          subst hj0
          simpa using h
        · refine ⟨k + 1, by simpa using hk, by simpa using h1, fun j hj => ?_⟩
          cases j with
          | zero => simpa using h
          | succ j => simpa using h2 j (by omega)
      · rintro ⟨k, hk, h1, h2⟩
        cases k with
        | zero =>
          left
          simpa using h1.symm
        | succ k =>
          right
          refine ⟨k, by simpa using hk, by simpa using h1, fun j hj => ?_⟩
          simpa using h2 (j + 1) (by omega)
    · rw [if_neg h]
      simp only [List.not_mem_nil, false_iff]
      rintro ⟨k, hk, h1, h2⟩
      exact h (by simpa using h2 0 (by omega))

lemma exists_sorted_pos (p : List ℚ) (i : ℕ) (hi : i < p.length) :
    ∃ k, k < p.length ∧ (sorted_pvals_tup p).getD k (0, 0) = (i, p.getD i 0) := by
  have hmem : (i, p.getD i 0) ∈ sorted_pvals_tup p := (mem_sorted_tup p _).2 ⟨hi, rfl⟩
  obtain ⟨k, hk, he⟩ := List.getElem_of_mem hmem
  exact ⟨k, by rwa [sorted_tup_length] at hk, by rw [List.getD_eq_getElem _ _ hk]; exact he⟩

lemma sorted_pos_unique (p : List ℚ) (k1 k2 : ℕ) (hk1 : k1 < p.length) (hk2 : k2 < p.length)
    (h : ((sorted_pvals_tup p).getD k1 (0, 0)).1 = ((sorted_pvals_tup p).getD k2 (0, 0)).1) :
    k1 = k2 := by
  have h1 : k1 < (sorted_pvals_tup p).length := by rw [sorted_tup_length]; exact hk1
  have h2 : k2 < (sorted_pvals_tup p).length := by rw [sorted_tup_length]; exact hk2
  have hm1 : k1 < ((sorted_pvals_tup p).map Prod.fst).length := by
    rw [List.length_map]; exact h1
  have hm2 : k2 < ((sorted_pvals_tup p).map Prod.fst).length := by
    rw [List.length_map]; exact h2
  have hget : ((sorted_pvals_tup p).map Prod.fst).get ⟨k1, hm1⟩ =
      ((sorted_pvals_tup p).map Prod.fst).get ⟨k2, hm2⟩ := by
    simp only [List.get_eq_getElem, List.getElem_map]
    rw [← List.getD_eq_getElem _ (0, 0) h1, ← List.getD_eq_getElem _ (0, 0) h2]
    exact h
  have := (List.Nodup.get_inj_iff (sorted_tup_fst_nodup p)).1 hget
  exact congrArg Fin.val this

lemma sorted_tup_mono (p : List ℚ) (j k : ℕ) (hjk : j ≤ k) (hk : k < p.length) :
    ((sorted_pvals_tup p).getD j (0, 0)).2 ≤ ((sorted_pvals_tup p).getD k (0, 0)).2 := by
  rcases eq_or_lt_of_le hjk with rfl | hlt
  · exact le_refl _
  · have hjs : j < (sorted_pvals_tup p).length := by rw [sorted_tup_length]; omega
    have hks : k < (sorted_pvals_tup p).length := by rw [sorted_tup_length]; exact hk
    have := (sorted_tup_sorted p).rel_get_of_lt (a := ⟨j, hjs⟩) (b := ⟨k, hks⟩) hlt
    rw [List.getD_eq_getElem _ _ hjs, List.getD_eq_getElem _ _ hks]
    exact this

lemma sorted_getD_mem (p : List ℚ) (k : ℕ) (hk : k < p.length) :
    (sorted_pvals_tup p).getD k (0, 0) ∈ sorted_pvals_tup p := by
  have hks : k < (sorted_pvals_tup p).length := by rw [sorted_tup_length]; exact hk
  rw [List.getD_eq_getElem _ _ hks]
  exact List.getElem_mem hks

/-! ### Concrete evaluation of the Holm-Bonferroni scenario -/

lemma sorted_eval_scenario : sorted_pvals_tup [1/100, 1/25, 3/100, 1/200] =
    [(3, 1/200), (0, 1/100), (2, 3/100), (1, 1/25)] := by
  norm_num [sorted_pvals_tup, pyEnum, List.insertionSort, List.orderedInsert, keyLE]

lemma corr_eval_scenario : corrected_pvals_tup [1/100, 1/25, 3/100, 1/200] =
    [(3, 1/50), (0, 3/100), (2, 3/50), (1, 1/25)] := by
  rw [corrected_pvals_tup, sorted_eval_scenario]
  norm_num [rangeDown]

lemma trues_eval_scenario : holm_trues [1/100, 1/25, 3/100, 1/200] (1/20) = [3, 0] := by
  rw [holm_trues, corr_eval_scenario]
  norm_num [takeTrues]

lemma holm_eval_scenario : _holm_bonferroni [1/100, 1/25, 3/100, 1/200] (1/20) =
    ([true, false, false, true], [3/100, 1/25, 3/50, 1/50]) := by
  rw [_holm_bonferroni, trues_eval_scenario, corr_eval_scenario]
  norm_num [List.insertionSort, List.orderedInsert, idxLE, List.range_succ]

/-! ### Claim theorems: Holm-Bonferroni -/

/-- C1 is false as stated: for p_values = [0.01, 0.04, 0.03, 0.005] and
alpha = 0.05 the step-down marks the two smallest p-values, whose original
indices are 3 and 0, so the returned significance vector in original index
order is [True, False, False, True], not [True, True, False, False]. -/
theorem holm_scenario_cex :
    (_holm_bonferroni [1/100, 1/25, 3/100, 1/200] (1/20)).1 ≠
      [true, true, false, false] := by
  rw [holm_eval_scenario]
  simp

/-- C1 (amended): the scenario with the correct final projection.  Sorting
ascending gives [(3, 0.005), (0, 0.01), (2, 0.03), (1, 0.04)]; multipliers
[4,3,2,1] give corrected sorted values [0.02, 0.03, 0.06, 0.04]; the
step-down marks the positions of 0.02 and 0.03 (original indices 3 and 0)
and stops at 0.06; the returned significance vector in original index order
is [True, False, False, True] and the corrected p-values re-projected to
original order are [0.03, 0.04, 0.06, 0.02]. -/
theorem holm_scenario_amended :
    sorted_pvals_tup [1/100, 1/25, 3/100, 1/200] =
      [(3, 1/200), (0, 1/100), (2, 3/100), (1, 1/25)] ∧
    corrected_pvals_tup [1/100, 1/25, 3/100, 1/200] =
      [(3, 1/50), (0, 3/100), (2, 3/50), (1, 1/25)] ∧
    holm_trues [1/100, 1/25, 3/100, 1/200] (1/20) = [3, 0] ∧
    _holm_bonferroni [1/100, 1/25, 3/100, 1/200] (1/20) =
      ([true, false, false, true], [3/100, 1/25, 3/50, 1/50]) :=
  ⟨sorted_eval_scenario, corr_eval_scenario, trues_eval_scenario, holm_eval_scenario⟩

/-- C3: Holm-Bonferroni marks significance only as a prefix of the
ascending-sorted scan: every sorted position at or after a position whose
corrected value is >= alpha is mapped to a False flag, even when its own
corrected value is < alpha; consequently there is an input with
corrected_pvals[i] < alpha yet significant[i] = False. -/
theorem holm_stepdown_scan :
    (∀ (p_values : List ℚ) (alpha : ℚ) (j k : ℕ), j ≤ k → k < p_values.length →
      alpha ≤ ((corrected_pvals_tup p_values).getD j (0, 0)).2 →
      ((_holm_bonferroni p_values alpha).1).getD
        (((corrected_pvals_tup p_values).getD k (0, 0)).1) true = false) ∧
    ∃ (p_values : List ℚ) (alpha : ℚ) (i : ℕ),
      ((_holm_bonferroni p_values alpha).2).getD i 0 < alpha ∧
        ((_holm_bonferroni p_values alpha).1).getD i true = false := by
  constructor
  · intro p alpha j k hjk hk hge
    have hidxlt : (((corrected_pvals_tup p).getD k (0, 0)).1) < p.length := by
      rw [corrected_tup_getD p k hk]
      exact ((mem_sorted_tup p _).1 (sorted_getD_mem p k hk)).1
    rw [holm_results_getD p alpha _ hidxlt, decide_eq_false_iff_not]
    intro hmem
    rw [holm_trues, mem_takeTrues] at hmem
    obtain ⟨k2, hk2, h1, h2⟩ := hmem
    have hk2p : k2 < p.length := by rwa [corrected_tup_length] at hk2
    have hkk : k2 = k := by
      apply sorted_pos_unique p k2 k hk2p hk
      have e2 := corrected_tup_getD p k2 hk2p
      have ek := corrected_tup_getD p k hk
      have : ((corrected_pvals_tup p).getD k2 (0, 0)).1 =
          ((corrected_pvals_tup p).getD k (0, 0)).1 := h1
      rw [e2, ek] at this
      exact this
    have := h2 j (by omega)
    linarith
  · refine ⟨[1/100, 1/25, 3/100, 1/200], 1/20, 1, ?_, ?_⟩
    · rw [holm_eval_scenario]
      norm_num
    · rw [holm_eval_scenario]
      rfl

theorem holm_stepdown_scan_witness :
    ((2 : ℕ) ≤ 3 ∧ (3 : ℕ) < ([1/100, 1/25, 3/100, 1/200] : List ℚ).length ∧
      (1/20 : ℚ) ≤ ((corrected_pvals_tup [1/100, 1/25, 3/100, 1/200]).getD 2 (0, 0)).2) ∧
    ((_holm_bonferroni [1/100, 1/25, 3/100, 1/200] (1/20)).1).getD
      (((corrected_pvals_tup [1/100, 1/25, 3/100, 1/200]).getD 3 (0, 0)).1) true = false :=
  ⟨⟨by norm_num, by norm_num, by rw [corr_eval_scenario]; norm_num⟩,
   holm_stepdown_scan.1 [1/100, 1/25, 3/100, 1/200] (1/20) 2 3 (by norm_num) (by norm_num)
     (by rw [corr_eval_scenario]; norm_num)⟩

/-- C7: monotonicity of the Holm-Bonferroni step-down decision.  For
p-values in the data-model domain (nonnegative), if position i is marked
significant then so is every position j whose p-value is at most
p_values[i]. -/
theorem holm_monotone (p_values : List ℚ) (alpha : ℚ) (hp : ∀ v ∈ p_values, 0 ≤ v)
    (i j : ℕ) (hi : i < p_values.length) (hj : j < p_values.length)
    (hle : p_values.getD j 0 ≤ p_values.getD i 0)
    (hsig : ((_holm_bonferroni p_values alpha).1).getD i false = true) :
    ((_holm_bonferroni p_values alpha).1).getD j false = true := by
  rw [holm_results_getD p_values alpha i hi, decide_eq_true_eq] at hsig
  rw [holm_results_getD p_values alpha j hj, decide_eq_true_eq]
  rw [holm_trues, mem_takeTrues] at hsig ⊢
  obtain ⟨ki, hki, hifst, hpref⟩ := hsig
  have hkip : ki < p_values.length := by rwa [corrected_tup_length] at hki
  have hie := corrected_tup_getD p_values ki hkip
  have hifst2 : ((sorted_pvals_tup p_values).getD ki (0, 0)).1 = i := by
    rw [hie] at hifst
    exact hifst
  have hival : p_values.getD i 0 = ((sorted_pvals_tup p_values).getD ki (0, 0)).2 := by
    have hmm := (mem_sorted_tup p_values _).1 (sorted_getD_mem p_values ki hkip)
    rw [hifst2] at hmm
    exact hmm.2
  obtain ⟨kj, hkjp, hjeq⟩ := exists_sorted_pos p_values j hj
  have hkjc : kj < (corrected_pvals_tup p_values).length := by
    rw [corrected_tup_length]
    exact hkjp
  have hje := corrected_tup_getD p_values kj hkjp
  refine ⟨kj, hkjc, ?_, ?_⟩
  · rw [hje, hjeq]
  · intro m hm
    by_cases hmk : m ≤ ki
    · exact hpref m hmk
    · push_neg at hmk
      have hmp : m < p_values.length := by omega
      have hme := corrected_tup_getD p_values m hmp
      have h1 : ((sorted_pvals_tup p_values).getD ki (0, 0)).2 ≤
          ((sorted_pvals_tup p_values).getD m (0, 0)).2 :=
        sorted_tup_mono p_values ki m (by omega) hmp
      have h2 : ((sorted_pvals_tup p_values).getD m (0, 0)).2 ≤
          ((sorted_pvals_tup p_values).getD kj (0, 0)).2 :=
        sorted_tup_mono p_values m kj hm hkjp
      have h2' : ((sorted_pvals_tup p_values).getD m (0, 0)).2 ≤ p_values.getD j 0 := by
        rw [hjeq] at h2
        exact h2
      rw [← hival] at h1
      have hmval : ((sorted_pvals_tup p_values).getD m (0, 0)).2 = p_values.getD i 0 :=
        le_antisymm (h2'.trans hle) h1
      have hprefki := hpref ki (le_refl ki)
      rw [hie, ← hival] at hprefki
      rw [hme, hmval]
      have hnn : (0 : ℚ) ≤ p_values.getD i 0 := by
        apply hp
        rw [List.getD_eq_getElem _ _ hi]
        exact List.getElem_mem hi
      have hfac : ((p_values.length - m : ℕ) : ℚ) ≤ ((p_values.length - ki : ℕ) : ℚ) := by
        exact_mod_cast Nat.sub_le_sub_left (le_of_lt hmk) p_values.length
      calc p_values.getD i 0 * ((p_values.length - m : ℕ) : ℚ)
          ≤ p_values.getD i 0 * ((p_values.length - ki : ℕ) : ℚ) :=
            mul_le_mul_of_nonneg_left hfac hnn
        _ < alpha := hprefki

theorem holm_monotone_witness :
    ((∀ v ∈ ([1/100, 1/25, 3/100, 1/200] : List ℚ), 0 ≤ v) ∧
      (0 : ℕ) < ([1/100, 1/25, 3/100, 1/200] : List ℚ).length ∧
      (3 : ℕ) < ([1/100, 1/25, 3/100, 1/200] : List ℚ).length ∧
      ([1/100, 1/25, 3/100, 1/200] : List ℚ).getD 3 0 ≤
        ([1/100, 1/25, 3/100, 1/200] : List ℚ).getD 0 0 ∧
      ((_holm_bonferroni [1/100, 1/25, 3/100, 1/200] (1/20)).1).getD 0 false = true) ∧
    ((_holm_bonferroni [1/100, 1/25, 3/100, 1/200] (1/20)).1).getD 3 false = true :=
  ⟨⟨by norm_num, by norm_num, by norm_num, by norm_num, by rw [holm_eval_scenario]; rfl⟩,
   holm_monotone [1/100, 1/25, 3/100, 1/200] (1/20) (by norm_num) 0 3 (by norm_num)
     (by norm_num) (by norm_num) (by rw [holm_eval_scenario]; rfl)⟩

/-! ### Claim theorems: Bonferroni, Sidak, dispatcher -/

/-- C8: Bonferroni returns corrected[i] = p_values[i] * n; Sidak returns
corrected[i] = p_values[i] * correction with
correction = alpha/(1 - (1 - alpha)^(1/n)) for n nonzero and correction = 1
for n = 0; and for both routines significant[i] iff corrected[i] < alpha,
elementwise, with no step-down exception. -/
theorem elementwise_bonferroni_sidak (p_values : List ℚ) (alpha : ℚ) (i : ℕ)
    (hi : i < p_values.length) :
    ((_bonferroni p_values alpha).2).getD i 0 =
      p_values.getD i 0 * (p_values.length : ℚ) ∧
    (((_bonferroni p_values alpha).1).getD i false = true ↔
      ((_bonferroni p_values alpha).2).getD i 0 < alpha) ∧
    ((_sidak p_values alpha).2).getD i 0 =
      ((p_values.getD i 0 : ℚ) : ℝ) * sidak_correction alpha p_values.length ∧
    (p_values.length ≠ 0 → sidak_correction alpha p_values.length =
      (alpha : ℝ) * 1 / (1 - (1 - (alpha : ℝ)) ^ ((1 : ℝ) / p_values.length))) ∧
    sidak_correction alpha 0 = 1 ∧
    (((_sidak p_values alpha).1).getD i false = true ↔
      ((_sidak p_values alpha).2).getD i 0 < (alpha : ℝ)) := by
  have hmap : i < (p_values.map (fun p => p * (p_values.length : ℚ))).length := by
    rw [List.length_map]; exact hi
  have hmap2 : i < ((p_values.map (fun p => p * (p_values.length : ℚ))).map
      (fun c => decide (c < alpha))).length := by
    rw [List.length_map]; exact hmap
  have hsmap : i < (p_values.map
      (fun p : ℚ => (p : ℝ) * sidak_correction alpha p_values.length)).length := by
    rw [List.length_map]; exact hi
  have hsmap2 : i < ((p_values.map
      (fun p : ℚ => (p : ℝ) * sidak_correction alpha p_values.length)).map
        (fun c => if c < (alpha : ℝ) then true else false)).length := by
    rw [List.length_map]; exact hsmap
  refine ⟨?_, ?_, ?_, ?_, ?_, ?_⟩
  · show ((p_values.map (fun p => p * (p_values.length : ℚ))).getD i 0) = _
    rw [List.getD_eq_getElem _ _ hmap, List.getElem_map, List.getD_eq_getElem _ _ hi]
  · show (((p_values.map (fun p => p * (p_values.length : ℚ))).map
      (fun c => decide (c < alpha))).getD i false = true) ↔
        ((p_values.map (fun p => p * (p_values.length : ℚ))).getD i 0) < alpha
    rw [List.getD_eq_getElem _ _ hmap2, List.getElem_map, List.getD_eq_getElem _ _ hmap]
    exact decide_eq_true_iff
  · show ((p_values.map
      (fun p : ℚ => (p : ℝ) * sidak_correction alpha p_values.length)).getD i 0) = _
    rw [List.getD_eq_getElem _ _ hsmap, List.getElem_map, List.getD_eq_getElem _ _ hi]
  · intro hn
    rw [sidak_correction, if_pos hn]
  · rw [sidak_correction]
    simp
  · show (((p_values.map (fun p : ℚ => (p : ℝ) * sidak_correction alpha p_values.length)).map
      (fun c => if c < (alpha : ℝ) then true else false)).getD i false = true) ↔
        ((p_values.map (fun p : ℚ => (p : ℝ) * sidak_correction alpha p_values.length)).getD i 0 <
          (alpha : ℝ))
    rw [List.getD_eq_getElem _ _ hsmap2, List.getElem_map, List.getD_eq_getElem _ _ hsmap]
    by_cases h : (p_values.map
        (fun p : ℚ => (p : ℝ) * sidak_correction alpha p_values.length))[i] < (alpha : ℝ)
    · simp [h]
    · simp [h]

theorem elementwise_bonferroni_sidak_witness :
    (0 : ℕ) < ([1/2] : List ℚ).length ∧
    (((_bonferroni [1/2] (1/20)).2).getD 0 0 =
      ([1/2] : List ℚ).getD 0 0 * (([1/2] : List ℚ).length : ℚ) ∧
    (((_bonferroni [1/2] (1/20)).1).getD 0 false = true ↔
      ((_bonferroni [1/2] (1/20)).2).getD 0 0 < (1/20 : ℚ)) ∧
    ((_sidak [1/2] (1/20)).2).getD 0 0 =
      ((([1/2] : List ℚ).getD 0 0 : ℚ) : ℝ) * sidak_correction (1/20) ([1/2] : List ℚ).length ∧
    (([1/2] : List ℚ).length ≠ 0 → sidak_correction (1/20) ([1/2] : List ℚ).length =
      ((1/20 : ℚ) : ℝ) * 1 /
        (1 - (1 - ((1/20 : ℚ) : ℝ)) ^ ((1 : ℝ) / ([1/2] : List ℚ).length))) ∧
    sidak_correction (1/20) 0 = 1 ∧
    (((_sidak [1/2] (1/20)).1).getD 0 false = true ↔
      ((_sidak [1/2] (1/20)).2).getD 0 0 < ((1/20 : ℚ) : ℝ))) :=
  ⟨by norm_num, elementwise_bonferroni_sidak [1/2] (1/20) 0 (by norm_num)⟩

/-- C9: the dispatcher rejects every routine name outside
{holm_bonferroni, bonferroni, sidak} with an AssertionError (assert routine
in routines) without delegating, and for each recognized name delegates to
the matching routine on the numeric vector of p-values. -/
theorem dispatcher_spec :
    (∀ (p_values : List ℚ) (alpha : ℚ) (routine : String), routine ∉ routineNames →
      test_corrected p_values alpha routine = .error .assertionError) ∧
    (∀ (p_values : List ℚ) (alpha : ℚ),
      test_corrected p_values alpha ("holm_bonferroni") =
        .ok (liftCorrection (_holm_bonferroni p_values alpha)) ∧
      test_corrected p_values alpha ("bonferroni") =
        .ok (liftCorrection (_bonferroni p_values alpha)) ∧
      test_corrected p_values alpha ("sidak") = .ok (_sidak p_values alpha)) := by
  constructor
  · intro p alpha r hr
    rw [test_corrected, if_neg hr]
  · intro p alpha
    refine ⟨?_, ?_, ?_⟩ <;> simp [test_corrected, routineNames]

theorem dispatcher_spec_witness :
    (("nonsense" ∉ routineNames) ∧
      test_corrected [] (1/20) ("nonsense") = .error .assertionError) ∧
    (test_corrected [1/2] (1/20) ("holm_bonferroni") =
        .ok (liftCorrection (_holm_bonferroni [1/2] (1/20))) ∧
      test_corrected [1/2] (1/20) ("bonferroni") =
        .ok (liftCorrection (_bonferroni [1/2] (1/20))) ∧
      test_corrected [1/2] (1/20) ("sidak") = .ok (_sidak [1/2] (1/20))) :=
  ⟨⟨by simp [routineNames], dispatcher_spec.1 [] (1/20) ("nonsense") (by simp [routineNames])⟩,
   dispatcher_spec.2 [1/2] (1/20)⟩
